import Mathlib

/-!
Verification of the sharded leaderboard cache of the minigames backend:
the Redis-backed sorted-set cache client (`src/server-rs/src/cache.rs`),
the sharded leaderboard service (`src/server-rs/src/services/leaderboard.rs`)
and the score-submission route (`src/server-rs/src/routes/scores.rs`).

Scores are `f64` in the source, but every score this subsystem writes is an
integral `i64` high score in `0..=999_999` cast losslessly to `f64`, so the
model uses `Int` scores and reads `partial_cmp(..).unwrap_or(Equal)` as the
total order on `Int` (no NaN arises in the modelled range).
-/

namespace Minigames

abbrev Score := Int

abbrev Entry := String × Score

abbrev ZSet := List Entry

/-- State of the cache backend: each key holds a sorted set, i.e. a
member-keyed map from member to score.  Storage order in the list is
immaterial because every read (`zrevrange`) sorts on access; `zadd` keeps at
most one entry per member, as a Redis sorted set does. -/
abbrev CacheState := String → ZSet

def emptyCache : CacheState := fun _ => []

/-- Redis `ZADD key score member` (`Cache::zadd`): insert or update the
member's score; a sorted set holds at most one entry per member, so any
previous entry for the member is replaced. -/
def zadd (st : CacheState) (key member : String) (score : Score) : CacheState :=
  fun k =>
    if k = key then (st key).filter (fun e => decide (e.1 ≠ member)) ++ [(member, score)]
    else st k

/-- Redis `ZSCORE key member` (`Cache::zscore`): the member's score, if present. -/
def zscore (st : CacheState) (key member : String) : Option Score :=
  ((st key).find? (fun e => decide (e.1 = member))).map Prod.snd

/-- Ordering used by `ZREVRANGE`: score descending, equal scores by member
descending (Redis keeps a sorted set ascending by score with lexicographic
member tie-break, and `ZREVRANGE` walks it backwards). -/
def zrevRel (a b : Entry) : Prop := b.2 < a.2 ∨ (a.2 = b.2 ∧ b.1 ≤ a.1)

instance : DecidableRel zrevRel := fun a b =>
  decidable_of_iff (b.2 < a.2 ∨ (a.2 = b.2 ∧ b.1 ≤ a.1)) Iff.rfl

instance : IsTotal Entry zrevRel where
  total a b := by
    rcases lt_trichotomy a.2 b.2 with h | h | h
    · exact Or.inr (Or.inl h)
    · rcases le_total a.1 b.1 with hs | hs
      · exact Or.inr (Or.inr ⟨h.symm, hs⟩)
      · exact Or.inl (Or.inr ⟨h, hs⟩)
    · exact Or.inl (Or.inl h)

instance : IsTrans Entry zrevRel where
  trans a b c hab hbc := by
    rcases hab with h1 | ⟨h1, h1s⟩ <;> rcases hbc with h2 | ⟨h2, h2s⟩
    · exact Or.inl (h2.trans h1)
    · exact Or.inl (h2 ▸ h1)
    · exact Or.inl (h1 ▸ h2)
    · exact Or.inr ⟨h1.trans h2, h2s.trans h1s⟩

/-- The backend's view of a sorted set in `ZREVRANGE` order. -/
def zrevSorted (l : ZSet) : ZSet := List.insertionSort zrevRel l

/-- Redis index arithmetic for `ZREVRANGE key start stop`: a negative index
counts from the end (`-1` is the last element), ends past the tail are
clamped, and an inverted range is empty. -/
def redisSlice (l : ZSet) (start stop : Int) : ZSet :=
  let len : Int := l.length
  let s : Int := if start < 0 then max (len + start) 0 else start
  let e : Int := if stop < 0 then len + stop else stop
  if e < s then [] else (l.take (e.toNat + 1)).drop s.toNat

/-- Model of `Cache::zrevrange_withscores`: descending slice of the key's
sorted set under Redis index semantics.  Backend errors (which the client
collapses to an empty vector) are not modelled: the model's backend is the
state itself. -/
def zrevrange_withscores (st : CacheState) (key : String) (start stop : Int) : ZSet :=
  redisSlice (zrevSorted (st key)) start stop

/-! ### Sharded leaderboard service (`services/leaderboard.rs`) -/

/-- Modelled from the spec: the player-identifier hash used by `shard_index`.
The source feeds the id through `std::collections::hash_map::DefaultHasher`
(Rust standard-library code, not part of this repository); the spec asks only
for "a stable, uniformly-distributing hash function over the player
identifier's string representation", modelled here as a fixed deterministic
polynomial hash into `u64`.  No theorem below depends on its values, only on
its being a pure function into `[0, 2^64)`. -/
def defaultHash (s : String) : Nat :=
  s.data.foldl (fun h c => (h * 31 + c.toNat) % 2 ^ 64) 5381

/-- Model of `shard_index`: `hash(player_id) % (shard_count as u64)`, total
in the model.  Rust panics when `shard_count = 0`; `shard_index_checked`
makes that branch explicit, and theorems about the service carry a
`shard_count ≥ 1` hypothesis wherever the distinction matters. -/
def shard_index (playerId : String) (shardCount : Nat) : Nat :=
  defaultHash playerId % shardCount

/-- Variant of `shard_index` with the division-by-zero panic explicit:
`hash % (shard_count as u64)` panics in Rust when `shard_count = 0` (`none`
here) and otherwise returns the remainder. -/
def shard_index_checked (playerId : String) (shardCount : Nat) : Option Nat :=
  if shardCount = 0 then none else some (defaultHash playerId % shardCount)

/-- Model of `lb_key`: `format!("lb:{t}:{g}:shard:{i}")` with the shard
number rendered in decimal (`Nat.repr`). -/
def lb_key (tenantId gameId : String) (shard : Nat) : String :=
  "lb:" ++ tenantId ++ ":" ++ gameId ++ ":shard:" ++ Nat.repr shard

/-- Model of `global_key`: `format!("lb:{t}:global:shard:{i}")`. -/
def global_key (tenantId : String) (shard : Nat) : String :=
  "lb:" ++ tenantId ++ ":global:shard:" ++ Nat.repr shard

/-- Model of `update_score`: `zadd` of the player into their shard's key.
The `expire(key, 7200)` TTL refresh changes no membership and is not
modelled (the model has no clock). -/
def update_score (st : CacheState) (tenantId gameId playerId : String) (score : Score)
    (shardCount : Nat) : CacheState :=
  zadd st (lb_key tenantId gameId (shard_index playerId shardCount)) playerId score

/-- Model of `update_global_score`: the same pattern against the global key. -/
def update_global_score (st : CacheState) (tenantId playerId : String) (totalScore : Score)
    (shardCount : Nat) : CacheState :=
  zadd st (global_key tenantId (shard_index playerId shardCount)) playerId totalScore

/-- Variant of `update_score` threading the `shard_index` panic: `none` when
`shard_count = 0`. -/
def update_score_checked (st : CacheState) (tenantId gameId playerId : String) (score : Score)
    (shardCount : Nat) : Option CacheState :=
  (shard_index_checked playerId shardCount).map fun shard =>
    zadd st (lb_key tenantId gameId shard) playerId score

/-- Ordering of the final merge in `get_top_k`:
`sort_by(|a, b| b.1.partial_cmp(&a.1).unwrap_or(Equal))`, i.e. score
descending, ties left in place (the Rust sort and this model's sort are both
stable; no theorem depends on tie order). -/
def scoreGE (a b : Entry) : Prop := b.2 ≤ a.2

instance : DecidableRel scoreGE := fun a b => decidable_of_iff (b.2 ≤ a.2) Iff.rfl

instance : IsTotal Entry scoreGE where
  total a b := le_total b.2 a.2

instance : IsTrans Entry scoreGE where
  trans _ _ _ hab hbc := le_trans hbc hab

/-- Model of `get_top_k`: each shard contributes `zrevrange(0, k-1)`, the
concatenation is sorted by score descending and truncated to `k`.  The Rust
`k as isize` cast is the identity for `k < 2^63` (callers cap `k` at 100);
theorems carry that bound where `k` appears. -/
def get_top_k (st : CacheState) (tenantId gameId : String) (k : Nat) (shardCount : Nat) : ZSet :=
  let all := (List.range shardCount).flatMap fun shard =>
    zrevrange_withscores st (lb_key tenantId gameId shard) 0 ((k : Int) - 1)
  (List.insertionSort scoreGE all).take k

/-- Model of `get_approx_rank`: look up the player's own score in their
shard (`None` if absent), then scan every shard's full sorted set
(`zrevrange(0, -1)`) counting entries with strictly greater score, and
return that count plus one. -/
def get_approx_rank (st : CacheState) (tenantId gameId playerId : String)
    (shardCount : Nat) : Option Nat :=
  match zscore st (lb_key tenantId gameId (shard_index playerId shardCount)) playerId with
  | none => none
  | some score =>
    let higherCount := (List.range shardCount).foldl
      (fun acc s =>
        acc + (zrevrange_withscores st (lb_key tenantId gameId s) 0 (-1)).countP
          (fun e => decide (score < e.2))) 0
    some (higherCount + 1)

/-- Model of `get_global_top_k`: the `get_top_k` algorithm against global keys. -/
def get_global_top_k (st : CacheState) (tenantId : String) (k : Nat) (shardCount : Nat) : ZSet :=
  let all := (List.range shardCount).flatMap fun shard =>
    zrevrange_withscores st (global_key tenantId shard) 0 ((k : Int) - 1)
  (List.insertionSort scoreGE all).take k

/-- Model of `rebuild_from_db`: the SQL result (up to 10000
`(player_id, high_score)` rows, descending by score) is an input here; each
row is replayed through `update_score` and the row count is returned. -/
def rebuild_from_db (st : CacheState) (tenantId gameId : String) (rows : List (String × Score))
    (shardCount : Nat) : CacheState × Nat :=
  (rows.foldl (fun s r => update_score s tenantId gameId r.1 r.2 shardCount) st, rows.length)

/-- The union of one leaderboard's shard sorted sets, as read through the
shard keys `0 .. shard_count`. -/
def allEntries (st : CacheState) (tenantId gameId : String) (shardCount : Nat) : ZSet :=
  (List.range shardCount).flatMap fun i => st (lb_key tenantId gameId i)

/-- Write operations of one leaderboard, for stating state invariants:
a direct `update_score` or a `rebuild_from_db` replay. -/
inductive LbOp where
  | upd (playerId : String) (score : Score) : LbOp
  | rebuild (rows : List (String × Score)) : LbOp

def applyLbOp (tenantId gameId : String) (shardCount : Nat) (st : CacheState) : LbOp → CacheState
  | .upd p s => update_score st tenantId gameId p s shardCount
  | .rebuild rows => (rebuild_from_db st tenantId gameId rows shardCount).1

def runLbOps (tenantId gameId : String) (shardCount : Nat) (ops : List LbOp) : CacheState :=
  ops.foldl (applyLbOp tenantId gameId shardCount) emptyCache

/-! ### Decimal rendering of shard numbers

`lb_key` embeds the shard number through `Nat.repr`; the injectivity of that
rendering is what keeps distinct shards on distinct keys. -/

/-- Decimal digit characters of a natural number, most significant first;
`toDigitsCore_eq_decChars` shows this is exactly what `Nat.repr` renders. -/
def decChars (n : Nat) : List Char :=
  if _h : n < 10 then [Nat.digitChar n]
  else decChars (n / 10) ++ [Nat.digitChar (n % 10)]
termination_by n
decreasing_by exact Nat.div_lt_self (by omega) (by omega)

def charVal (c : Char) : Nat := c.toNat - 48

/-- Value of a most-significant-first digit string. -/
def decValue (l : List Char) : Nat := l.foldl (fun a c => a * 10 + charVal c) 0

/-! ### Score submission route (`routes/scores.rs`) -/

/-- Request body of `submit_score` (`ScoreSubmitRequest`; the `custom_data`
and `timestamp` fields are never read by the handler). -/
structure ScoreSubmitRequest where
  score : Int
  time : Option Int
  level : Option Int
deriving DecidableEq

/-- One `game_progress` row, with the columns the handler touches. -/
structure ProgressRow where
  high_score : Int
  best_time : Option Int
  level : Int
  play_count : Int
  total_score : Int
  stars : Int
deriving DecidableEq

/-- One `players` row, with the columns the handler touches. -/
structure PlayerRow where
  total_score : Int
  games_played : Int
  total_play_time : Option Int
deriving DecidableEq

/-- One `score_history` row as inserted by the handler. -/
structure HistoryRow where
  player_id : String
  tenant_id : String
  game_id : String
  score : Int
  level : Option Int
  play_time : Option Int
deriving DecidableEq

/-- Key of `game_progress`: `(player_id, tenant_id, game_id)`. -/
abbrev ProgressKey := String × String × String

/-- The durable store as the handler sees it. -/
structure Db where
  game_progress : ProgressKey → Option ProgressRow
  players : String × String → Option PlayerRow
  score_history : List HistoryRow

/-- The error enum of `error.rs` (payloads flattened to their messages). -/
inductive AppError where
  | BadRequest (msg : String)
  | Unauthorized (msg : String)
  | Forbidden (msg : String)
  | NotFound (msg : String)
  | Conflict (msg : String)
  | RateLimited
  | Database (msg : String)
  | Redis (msg : String)
  | Jwt (msg : String)
  | Internal (msg : String)
deriving DecidableEq

/-- The JSON body `submit_score` returns on success. -/
structure ScoreSubmitResponse where
  success : Bool
  highScore : Int
  stars : Int
  isNewHighScore : Bool
  newAchievements : List String
deriving DecidableEq

/-- Everything a `submit_score` call leaves behind: the durable store after
the transaction, the cache after the spawned update, and the HTTP response. -/
structure SubmitOutcome where
  db : Db
  cache : CacheState
  response : Except AppError ScoreSubmitResponse

/-- Model of `star_thresholds`: the per-game `[1-star, 2-star, 3-star]`
threshold table, unmatched games falling back to `[100, 300, 600]`. -/
def star_thresholds (gameId : String) : Int × Int × Int :=
  match gameId with
  | "PhysicsMasterBilliards" => (200, 600, 1500)
  | "STEMProjectVolley" => (300, 800, 1500)
  | "DroneDefense" => (200, 500, 1000)
  | "CampusDash" => (100, 300, 600)
  | "ChemistryLab" => (150, 400, 900)
  | "MathBlaster" => (200, 500, 1200)
  | "BiologyExplorer" => (100, 350, 800)
  | "CodeRunner" => (250, 600, 1400)
  | "GeoQuest" => (150, 450, 1000)
  | "RobotBuilder" => (200, 550, 1300)
  | "SpaceNavigator" => (300, 700, 1500)
  | "CircuitMaster" => (150, 400, 900)
  | "EcoSystem" => (100, 300, 700)
  | "DataDetective" => (200, 500, 1100)
  | "WeatherStation" => (150, 400, 850)
  | "LabSafety" => (100, 250, 600)
  | "BridgeBuilder" => (200, 500, 1200)
  | "StarMapper" => (150, 400, 900)
  | "MicroWorld" => (100, 350, 800)
  | "EnergyGrid" => (200, 500, 1100)
  | "FossilHunter" => (150, 400, 900)
  | "VolcanoLab" => (200, 500, 1000)
  | "OceanExplorer" => (100, 300, 700)
  | "GeneticLab" => (200, 600, 1300)
  | "RocketScience" => (250, 600, 1400)
  | _ => (100, 300, 600)

/-- Model of `calculate_stars`: 3, 2, 1 or 0 stars by descending threshold. -/
def calculate_stars (gameId : String) (score : Int) : Int :=
  let t := star_thresholds gameId
  if t.2.2 ≤ score then 3
  else if t.2.1 ≤ score then 2
  else if t.1 ≤ score then 1
  else 0

/-- The player's durable high score as the handler reads it: the row's
`high_score`, or 0 when the row is absent. -/
def prev_high (db : Db) (playerId tenantId gameId : String) : Int :=
  ((db.game_progress (playerId, tenantId, gameId)).map (·.high_score)).getD 0

/-- Model of the `submit_score` handler.  The achievement evaluation
(`achievements::evaluate`, an awaited external call that reads the store and
can fail like any query) enters as its outcome `achievementsOutcome`; the
spawned leaderboard cache update is fire-and-forget, so its eventual effect
is recorded in the outcome's cache and nothing of it feeds the response.
Durable-store queries themselves are modelled as succeeding (their errors
abort the transaction before commit and are out of the modelled range). -/
def submit_score (db : Db) (cache : CacheState) (shardCount : Nat)
    (tenantId gameId playerId : String) (body : ScoreSubmitRequest)
    (achievementsOutcome : Except AppError (List String)) : SubmitOutcome :=
  if body.score < 0 ∨ 999999 < body.score then
    ⟨db, cache, .error (.BadRequest "Score must be between 0 and 999999")⟩
  else
    let key : ProgressKey := (playerId, tenantId, gameId)
    let prev := db.game_progress key
    let prevHigh := (prev.map (·.high_score)).getD 0
    let upserted : ProgressRow :=
      match prev with
      | none =>
        { high_score := body.score, best_time := body.time, level := body.level.getD 1
          play_count := 1, total_score := body.score, stars := 0 }
      | some r =>
        { high_score := max r.high_score body.score
          best_time :=
            match body.time, r.best_time with
            | some newT, none => some newT
            | some newT, some oldT => if newT < oldT then some newT else some oldT
            | none, oldT => oldT
          level := max r.level (body.level.getD 1)
          play_count := r.play_count + 1
          total_score := r.total_score + body.score
          stars := r.stars }
    let newHigh := max prevHigh body.score
    let stars := calculate_stars gameId newHigh
    let starred : ProgressRow := { upserted with stars := max upserted.stars stars }
    let gp := fun kk => if kk = key then some starred else db.game_progress kk
    let pl := fun kk =>
      if kk = (playerId, tenantId) then
        (db.players kk).map fun p =>
          { total_score := p.total_score + body.score
            games_played := p.games_played + 1
            total_play_time := some (p.total_play_time.getD 0 + body.time.getD 0) }
      else db.players kk
    let hist := db.score_history ++
      [⟨playerId, tenantId, gameId, body.score, body.level, body.time⟩]
    let committed : Db := ⟨gp, pl, hist⟩
    let isNewHigh := decide (prevHigh < body.score)
    let cache2 := update_score cache tenantId gameId playerId newHigh shardCount
    match achievementsOutcome with
    | .error e => ⟨committed, cache2, .error e⟩
    | .ok achs => ⟨committed, cache2, .ok ⟨true, newHigh, stars, isNewHigh, achs⟩⟩

/-! ### Concrete fixtures used by witnesses and counterexamples -/

/-- Cache state realising the spec's "top-K approximation boundary"
scenario for `k = 2` and two shards: shard 0 holds the global first, second
and third entries, shard 1 a low entry. -/
def topKDemoState : CacheState := fun key =>
  if key = lb_key "t1" "g1" 0 then [("alice", 100), ("bob", 90), ("carol", 80)]
  else if key = lb_key "t1" "g1" 1 then [("dave", 10)] else []

/-- Cache state with two players written through `update_score`. -/
def twoPlayerState : CacheState :=
  update_score (update_score emptyCache "t1" "g1" "bob" 50 4) "t1" "g1" "alice" 100 4

/-- A small mixed sequence of leaderboard write operations. -/
def demoOps : List LbOp :=
  [.upd "alice" 100, .rebuild [("bob", 50), ("alice", 70)], .upd "carol" 25]

/-- A `game_progress` row with durable high score 100. -/
def demoRow : ProgressRow :=
  { high_score := 100, best_time := none, level := 1, play_count := 3
    total_score := 250, stars := 1 }

/-- Durable store holding `demoRow` for player `p1` of tenant `t1`, game `g1`. -/
def demoDb : Db :=
  { game_progress := fun k => if k = ("p1", "t1", "g1") then some demoRow else none
    players := fun _ => none
    score_history := [] }

/-- Outcome of a valid submission whose awaited achievement evaluation
fails after the transaction committed. -/
def demoFailedAchOutcome : SubmitOutcome :=
  submit_score demoDb emptyCache 4 "t1" "g1" "p1" ⟨200, none, none⟩
    (.error (.Database "connection reset"))

/-! ### Decimal rendering: `Nat.repr` is injective, hence `lb_key` separates shards -/

theorem digitChar_charVal : ∀ d : Nat, d < 10 → charVal (Nat.digitChar d) = d := by decide

theorem decValue_decChars (n : Nat) : decValue (decChars n) = n := by
  induction n using Nat.strong_induction_on with
  | _ n ih =>
    rw [decChars]
    split
    · rename_i h
      simp [decValue, List.foldl, digitChar_charVal n h]
    · rename_i h
      have hd : n / 10 < n := Nat.div_lt_self (by omega) (by omega)
      have hv := ih (n / 10) hd
      rw [decValue, List.foldl_append]
      have hfold : List.foldl (fun a c => a * 10 + charVal c) 0 (decChars (n / 10)) = n / 10 := hv
      rw [hfold]
      simp only [List.foldl]
      rw [digitChar_charVal (n % 10) (Nat.mod_lt _ (by omega))]
      omega

theorem decChars_injective : Function.Injective decChars := by
  intro m n h
  have h2 := congrArg decValue h
  rw [decValue_decChars, decValue_decChars] at h2
  exact h2

theorem toDigitsCore_succ (f n : Nat) (acc : List Char) :
    Nat.toDigitsCore 10 (f + 1) n acc =
      if n / 10 = 0 then Nat.digitChar (n % 10) :: acc
      else Nat.toDigitsCore 10 f (n / 10) (Nat.digitChar (n % 10) :: acc) := by
  conv_lhs => simp only [Nat.toDigitsCore]

theorem toDigitsCore_eq_decChars :
    ∀ n f acc, n ≤ f → Nat.toDigitsCore 10 (f + 1) n acc = decChars n ++ acc := by
  intro n
  induction n using Nat.strong_induction_on with
  | _ n ih =>
    intro f acc hf
    rw [toDigitsCore_succ]
    by_cases h0 : n / 10 = 0
    · have hlt : n < 10 := by omega
      rw [if_pos h0, decChars, dif_pos hlt, Nat.mod_eq_of_lt hlt]
      rfl
    · have h10 : 10 ≤ n := by omega
      obtain ⟨f', rfl⟩ : ∃ f', f = f' + 1 := ⟨f - 1, by omega⟩
      have hd : n / 10 < n := Nat.div_lt_self (by omega) (by omega)
      rw [if_neg h0, ih (n / 10) hd f' (Nat.digitChar (n % 10) :: acc) (by omega)]
      conv_rhs => rw [decChars]
      rw [dif_neg (show ¬n < 10 by omega)]
      simp [List.append_assoc]

theorem repr_eq_decChars (n : Nat) : Nat.repr n = (decChars n).asString := by
  have h := toDigitsCore_eq_decChars n n [] le_rfl
  unfold Nat.repr Nat.toDigits
  rw [h, List.append_nil]

theorem repr_injective : Function.Injective Nat.repr := by
  intro m n h
  rw [repr_eq_decChars, repr_eq_decChars] at h
  exact decChars_injective (congrArg String.data h)

theorem lb_key_inj {t g : String} {i j : Nat} (h : lb_key t g i = lb_key t g j) : i = j := by
  have hd := congrArg String.data h
  simp only [lb_key, String.data_append, List.append_assoc, List.append_right_inj] at hd
  exact repr_injective (String.ext hd)

/-! ### Generic facts about sorted-set reads -/

theorem zrevSorted_perm (l : ZSet) : (zrevSorted l).Perm l := List.perm_insertionSort _ l

theorem zrevSorted_pairwise (l : ZSet) : (zrevSorted l).Pairwise scoreGE := by
  refine (List.sorted_insertionSort zrevRel l).imp ?_
  intro a b hab
  rcases hab with h1 | ⟨h1, _⟩
  · exact le_of_lt h1
  · exact le_of_eq h1.symm

theorem redisSlice_all (l : ZSet) : redisSlice l 0 (-1) = l := by
  simp only [redisSlice]
  norm_num
  split_ifs with h
  · exact h.symm
  · have hp : 0 < l.length := List.length_pos.mpr h
    rw [show ((l.length : Int) + -1).toNat + 1 = l.length by omega]
    exact List.take_length l

theorem redisSlice_take (l : ZSet) (k : Nat) (hk : 1 ≤ k) :
    redisSlice l 0 ((k : Int) - 1) = l.take k := by
  simp only [redisSlice]
  norm_num
  split_ifs with h1 h2 h3 <;>
    first
      | omega
      | rw [show ((k : Int) - 1).toNat + 1 = k by omega]

theorem zrevrange_sublist_sorted (st : CacheState) (key : String) (start stop : Int) :
    (zrevrange_withscores st key start stop).Sublist (zrevSorted (st key)) := by
  simp only [zrevrange_withscores, redisSlice]
  split_ifs <;>
    first
      | exact List.nil_sublist _
      | exact (List.drop_sublist _ _).trans (List.take_sublist _ _)

theorem mem_zrevrange (st : CacheState) (key : String) (start stop : Int) {e : Entry}
    (he : e ∈ zrevrange_withscores st key start stop) : e ∈ st key :=
  (zrevSorted_perm (st key)).mem_iff.mp ((zrevrange_sublist_sorted st key start stop).mem he)

theorem countP_flatMap {α : Type} (p : Entry → Bool) (l : List α) (f : α → ZSet) :
    ((l.flatMap f).countP p) = (l.map fun i => (f i).countP p).sum := by
  induction l with
  | nil => rfl
  | cons a t ih => simp [List.flatMap_cons, List.countP_append, ih]

theorem component_countP_le {α : Type} (p : Entry → Bool) {l : List α} (f : α → ZSet) {i : α}
    (hi : i ∈ l) : (f i).countP p ≤ (l.flatMap f).countP p := by
  induction l with
  | nil => cases hi
  | cons a t ih =>
    rw [List.flatMap_cons, List.countP_append]
    rcases List.mem_cons.mp hi with rfl | hi
    · exact Nat.le_add_right _ _
    · exact le_trans (ih hi) (Nat.le_add_left _ _)

theorem flatMap_countP_mono {α : Type} (p : Entry → Bool) {l : List α} {f g : α → ZSet}
    (h : ∀ i ∈ l, (f i).countP p ≤ (g i).countP p) :
    (l.flatMap f).countP p ≤ (l.flatMap g).countP p := by
  induction l with
  | nil => exact le_rfl
  | cons a t ih =>
    rw [List.flatMap_cons, List.flatMap_cons, List.countP_append, List.countP_append]
    exact Nat.add_le_add (h a (List.mem_cons_self a t)) (ih fun i hi => h i (List.mem_cons_of_mem a hi))

theorem pairwise_take_drop {l : ZSet} (hl : l.Pairwise scoreGE) {k : Nat} {e e' : Entry}
    (he' : e' ∈ l.take k) (he : e ∈ l.drop k) : e.2 ≤ e'.2 := by
  have h2 : (l.take k ++ l.drop k).Pairwise scoreGE := by
    rw [List.take_append_drop]; exact hl
  exact (List.pairwise_append.mp h2).2.2 e' he' e he

theorem mem_take_of_countP_le {l : ZSet} (hl : l.Pairwise scoreGE) {e : Entry} {k : Nat}
    (he : e ∈ l) (hc : l.countP (fun x => decide (e.2 ≤ x.2)) ≤ k) : e ∈ l.take k := by
  induction l generalizing k with
  | nil => cases he
  | cons a t ih =>
    have hpa := List.pairwise_cons.mp hl
    rcases List.mem_cons.mp he with rfl | het
    · have h1 : 0 < (e :: t).countP (fun x => decide (e.2 ≤ x.2)) := by
        rw [List.countP_cons]
        simp
      obtain ⟨k', rfl⟩ : ∃ k', k = k' + 1 := ⟨k - 1, by omega⟩
      rw [List.take_succ_cons]
      exact List.mem_cons_self _ _
    · have ha : decide (e.2 ≤ a.2) = true := decide_eq_true (hpa.1 e het)
      rw [List.countP_cons, ha] at hc
      simp only [if_true] at hc
      obtain ⟨k', rfl⟩ : ∃ k', k = k' + 1 := ⟨k - 1, by omega⟩
      rw [List.take_succ_cons]
      exact List.mem_cons_of_mem a (ih hpa.2 het (by omega))

theorem take_score_ge {l : ZSet} (hl : l.Pairwise scoreGE) {c : Score} {k : Nat}
    (hc : k ≤ l.countP (fun x => decide (c ≤ x.2))) : ∀ r ∈ l.take k, c ≤ r.2 := by
  induction l generalizing k with
  | nil => intro r hr; rw [List.take_nil] at hr; cases hr
  | cons a t ih =>
    intro r hr
    cases k with
    | zero => rw [List.take_zero] at hr; cases hr
    | succ k' =>
      have hpa := List.pairwise_cons.mp hl
      by_cases hca : c ≤ a.2
      · rw [List.take_succ_cons] at hr
        rcases List.mem_cons.mp hr with rfl | hrt
        · exact hca
        · refine ih hpa.2 ?_ r hrt
          rw [List.countP_cons, decide_eq_true hca] at hc
          simp only [if_true] at hc
          omega
      · exfalso
        have hall : (a :: t).countP (fun x => decide (c ≤ x.2)) = 0 := by
          rw [List.countP_eq_zero]
          intro x hx
          rcases List.mem_cons.mp hx with rfl | hxt
          · simpa using hca
          · have hxa := hpa.1 x hxt
            simp only [decide_eq_true_eq]
            exact fun hcx => hca (le_trans hcx hxa)
        omega

/-! ### Facts about `zadd`, `zscore` and per-player counts -/

theorem zadd_self (st : CacheState) (key m : String) (s : Score) :
    zadd st key m s key = (st key).filter (fun e => decide (e.1 ≠ m)) ++ [(m, s)] := by
  simp [zadd]

theorem zadd_other (st : CacheState) (key m : String) (s : Score) {k : String} (h : k ≠ key) :
    zadd st key m s k = st k := by
  simp [zadd, h]

theorem countP_filter_ne (l : ZSet) (p : String) :
    (l.filter fun e => decide (e.1 ≠ p)).countP (fun e => decide (e.1 = p)) = 0 := by
  rw [List.countP_filter, List.countP_eq_zero]
  intro e _
  simp

theorem find?_append_of_none {A : ZSet} {p : String} {s : Score}
    (hA : ∀ e ∈ A, e.1 ≠ p) :
    (A ++ [(p, s)]).find? (fun e => decide (e.1 = p)) = some (p, s) := by
  rw [List.find?_append]
  have h1 : A.find? (fun e => decide (e.1 = p)) = none := by
    rw [List.find?_eq_none]
    intro e he
    simpa using hA e he
  rw [h1]
  simp [List.find?]

theorem zscore_zadd_self (st : CacheState) (key m : String) (s : Score) :
    zscore (zadd st key m s) key m = some s := by
  rw [zscore, zadd_self,
    find?_append_of_none (fun e he => by simpa using (List.mem_filter.mp he).2)]
  rfl

theorem countP_flatMap_zero {α : Type} {p : Entry → Bool} {l : List α} {f : α → ZSet}
    (h : ∀ i ∈ l, (f i).countP p = 0) : (l.flatMap f).countP p = 0 := by
  induction l with
  | nil => rfl
  | cons a tl ih =>
    rw [List.flatMap_cons, List.countP_append, h a (List.mem_cons_self a tl),
      ih fun i hi => h i (List.mem_cons_of_mem a hi)]

theorem countP_flatMap_eq_one {p : Entry → Bool} {l : List Nat} {f : Nat → ZSet} {i₀ : Nat}
    (hl : l.Nodup) (hi : i₀ ∈ l) (h0 : ∀ i ∈ l, i ≠ i₀ → (f i).countP p = 0)
    (h1 : (f i₀).countP p = 1) : (l.flatMap f).countP p = 1 := by
  induction l with
  | nil => cases hi
  | cons a tl ih =>
    rw [List.flatMap_cons, List.countP_append]
    rcases List.mem_cons.mp hi with rfl | hi
    · rw [h1, countP_flatMap_zero fun i him =>
        h0 i (List.mem_cons_of_mem _ him) fun hia =>
          (List.nodup_cons.mp hl).1 (hia ▸ him)]
    · rw [h0 _ (List.mem_cons_self _ _)
        (fun hia => (List.nodup_cons.mp hl).1 (hia ▸ hi)),
        ih (List.nodup_cons.mp hl).2 hi
          fun i him hine => h0 i (List.mem_cons_of_mem _ him) hine]

theorem countP_flatMap_le_one {p : Entry → Bool} {l : List Nat} {f : Nat → ZSet} {i₀ : Nat}
    (hl : l.Nodup) (h0 : ∀ i ∈ l, i ≠ i₀ → (f i).countP p = 0)
    (h1 : (f i₀).countP p ≤ 1) : (l.flatMap f).countP p ≤ 1 := by
  by_cases hi : i₀ ∈ l
  · induction l with
    | nil => cases hi
    | cons a tl ih =>
      rw [List.flatMap_cons, List.countP_append]
      rcases List.mem_cons.mp hi with rfl | hi
      · rw [countP_flatMap_zero fun i him =>
          h0 i (List.mem_cons_of_mem _ him) fun hia =>
            (List.nodup_cons.mp hl).1 (hia ▸ him)]
        omega
      · rw [h0 _ (List.mem_cons_self _ _)
          (fun hia => (List.nodup_cons.mp hl).1 (hia ▸ hi))]
        simpa using ih (List.nodup_cons.mp hl).2
          (fun i him hine => h0 i (List.mem_cons_of_mem _ him) hine) hi
  · rw [countP_flatMap_zero fun i him => h0 i him fun hia => hi (hia ▸ him)]
    omega

/-! ### Claim theorems -/

/-- C3: `shard_index` is a pure, deterministic function of
`(player_id, shard_count)`: repeated evaluations on the same arguments agree,
and for every `shard_count ≥ 1` the result lies in `[0, shard_count)`. -/
theorem shard_index_pure_range (p : String) (n : Nat) (hn : 1 ≤ n) :
    shard_index p n = shard_index p n ∧ shard_index p n < n :=
  ⟨rfl, Nat.mod_lt _ hn⟩

theorem shard_index_pure_range_witness :
    1 ≤ 4 ∧ (shard_index "player-1" 4 = shard_index "player-1" 4 ∧ shard_index "player-1" 4 < 4) :=
  ⟨by decide, shard_index_pure_range "player-1" 4 (by decide)⟩

/-- C9: `shard_index` (and hence `update_score`, which calls it) is total
only under `shard_count ≥ 1`: at `shard_count = 0` the `hash % shard_count`
remainder is a division by zero and panics (modelled as `none`), while under
`shard_count ≥ 1` the panic branch is unreachable and the checked functions
agree with the total models. -/
theorem shard_index_total_iff (p : String) (n : Nat) (st : CacheState) (t g : String)
    (s : Score) :
    shard_index_checked p 0 = none
    ∧ update_score_checked st t g p s 0 = none
    ∧ (1 ≤ n → shard_index_checked p n = some (shard_index p n)
        ∧ update_score_checked st t g p s n = some (update_score st t g p s n)) := by
  refine ⟨rfl, rfl, fun hn => ?_⟩
  have h0 : ¬n = 0 := by omega
  constructor
  · simp [shard_index_checked, shard_index, h0]
  · simp [update_score_checked, shard_index_checked, update_score, shard_index, h0]

/-- C6: two `update_score` calls for the same `(tenant, game, player)` with
different scores leave exactly one cached entry for that player, holding the
second score — sorted-set last-write-wins, with no monotonicity enforced by
the cache even when the second score is lower. -/
theorem update_score_last_write_wins (st : CacheState) (t g p : String) (s₁ s₂ : Score)
    (n : Nat) (hn : 0 < n) (_hne : s₁ ≠ s₂)
    (hother : ∀ i < n, i ≠ shard_index p n → ∀ e ∈ st (lb_key t g i), e.1 ≠ p) :
    (allEntries (update_score (update_score st t g p s₁ n) t g p s₂ n) t g n).countP
        (fun e => decide (e.1 = p)) = 1
    ∧ zscore (update_score (update_score st t g p s₁ n) t g p s₂ n)
        (lb_key t g (shard_index p n)) p = some s₂ := by
  constructor
  · rw [allEntries]
    have hlt : shard_index p n < n := Nat.mod_lt _ hn
    refine countP_flatMap_eq_one (List.nodup_range n) (List.mem_range.mpr hlt) ?_ ?_
    · intro i hi hne
      rw [update_score, update_score,
        zadd_other _ _ _ _ (fun hk => hne (lb_key_inj hk)),
        zadd_other _ _ _ _ (fun hk => hne (lb_key_inj hk)), List.countP_eq_zero]
      intro e he
      simpa using hother i (List.mem_range.mp hi) hne e he
    · rw [update_score, zadd_self, List.countP_append, countP_filter_ne]
      simp
  · exact zscore_zadd_self _ _ _ _

theorem update_score_last_write_wins_witness :
    (0 < 4 ∧ (100 : Score) ≠ 50
        ∧ (∀ i < 4, i ≠ shard_index "alice" 4 →
            ∀ e ∈ emptyCache (lb_key "t1" "g1" i), e.1 ≠ "alice"))
    ∧ ((allEntries (update_score (update_score emptyCache "t1" "g1" "alice" 100 4)
          "t1" "g1" "alice" 50 4) "t1" "g1" 4).countP (fun e => decide (e.1 = "alice")) = 1
        ∧ zscore (update_score (update_score emptyCache "t1" "g1" "alice" 100 4)
            "t1" "g1" "alice" 50 4) (lb_key "t1" "g1" (shard_index "alice" 4)) "alice"
          = some 50) :=
  ⟨⟨by decide, by decide, fun i _ _ e he => absurd he (List.not_mem_nil e)⟩,
    update_score_last_write_wins emptyCache "t1" "g1" "alice" 100 50 4 (by decide)
      (by decide) (fun i _ _ e he => absurd he (List.not_mem_nil e))⟩

/-! ### Facts about `get_approx_rank` -/

theorem countP_zrevrange_all (st : CacheState) (key : String) (p : Entry → Bool) :
    (zrevrange_withscores st key 0 (-1)).countP p = (st key).countP p := by
  rw [zrevrange_withscores, redisSlice_all]
  exact (zrevSorted_perm (st key)).countP_eq p

theorem foldl_add_countP (p : Entry → Bool) (f : Nat → ZSet) (l : List Nat) (init : Nat) :
    l.foldl (fun acc i => acc + (f i).countP p) init = init + (l.flatMap f).countP p := by
  induction l generalizing init with
  | nil => simp
  | cons a tl ih => simp [List.flatMap_cons, List.countP_append, ih, Nat.add_assoc]

theorem get_approx_rank_some {st : CacheState} {t g p : String} {n : Nat} {s : Score}
    (h : zscore st (lb_key t g (shard_index p n)) p = some s) :
    get_approx_rank st t g p n
      = some ((allEntries st t g n).countP (fun e => decide (s < e.2)) + 1) := by
  unfold get_approx_rank
  rw [h]
  show some _ = some _
  rw [foldl_add_countP, Nat.zero_add, countP_flatMap, allEntries, countP_flatMap]
  congr 1
  congr 1
  congr 1
  refine List.map_congr_left fun i _ => ?_
  exact countP_zrevrange_all st (lb_key t g i) _

theorem zscore_mem {st : CacheState} {key p : String} {s : Score}
    (h : zscore st key p = some s) : (p, s) ∈ st key := by
  rw [zscore] at h
  cases hfind : (st key).find? (fun e => decide (e.1 = p)) with
  | none => rw [hfind] at h; cases h
  | some e =>
    rcases e with ⟨e1, e2⟩
    rw [hfind] at h
    have he1 : e1 = p := by simpa using List.find?_some hfind
    have he2 : e2 = s := by simpa using h
    have hmem := List.mem_of_find?_eq_some hfind
    rw [← he1, ← he2]
    exact hmem

theorem countP_lt_of_mem {l : ZSet} {x : Entry} {pb qb : Entry → Bool}
    (hx : x ∈ l) (hpx : pb x = false) (hqx : qb x = true)
    (himp : ∀ y, pb y = true → qb y = true) : l.countP pb < l.countP qb := by
  induction l with
  | nil => cases hx
  | cons a tl ih =>
    rw [List.countP_cons, List.countP_cons]
    rcases List.mem_cons.mp hx with rfl | hx
    · rw [hpx, hqx]
      have hle : tl.countP pb ≤ tl.countP qb :=
        List.countP_mono_left fun y _ => himp y
      simp only [Bool.false_eq_true, if_false, if_true]
      omega
    · have hle : (if pb a = true then 1 else 0) ≤ (if qb a = true then 1 else 0) := by
        by_cases h : pb a = true
        · rw [if_pos h, if_pos (himp a h)]
        · rw [if_neg h]
          split <;> omega
      have := ih hx
      omega

/-- C2: `get_approx_rank` returns `none` exactly when the player's score is
absent from their shard's sorted set; when the score `s` is present it
returns `some (c + 1)` where `c` counts the cached entries across all
`shard_count` shards whose score strictly exceeds `s` — a true exact rank. -/
theorem get_approx_rank_exact (st : CacheState) (t g p : String) (n : Nat) (_hn : 0 < n) :
    (zscore st (lb_key t g (shard_index p n)) p = none → get_approx_rank st t g p n = none)
    ∧ ∀ s : Score, zscore st (lb_key t g (shard_index p n)) p = some s →
        get_approx_rank st t g p n
          = some ((allEntries st t g n).countP (fun e => decide (s < e.2)) + 1) := by
  constructor
  · intro h
    unfold get_approx_rank
    rw [h]
  · intro s h
    exact get_approx_rank_some h

theorem get_approx_rank_exact_witness :
    0 < 4
    ∧ ((zscore twoPlayerState (lb_key "t1" "g1" (shard_index "carol" 4)) "carol" = none →
          get_approx_rank twoPlayerState "t1" "g1" "carol" 4 = none)
        ∧ ∀ s : Score,
            zscore twoPlayerState (lb_key "t1" "g1" (shard_index "carol" 4)) "carol" = some s →
            get_approx_rank twoPlayerState "t1" "g1" "carol" 4
              = some ((allEntries twoPlayerState "t1" "g1" 4).countP
                  (fun e => decide (s < e.2)) + 1)) :=
  ⟨by decide, get_approx_rank_exact twoPlayerState "t1" "g1" "carol" 4 (by decide)⟩

/-- C5: for two players cached under the same tenant and game with scores
`s₁ > s₂`, `get_approx_rank` gives the `s₁` player a strictly smaller rank
number than the `s₂` player. -/
theorem get_approx_rank_monotone (st : CacheState) (t g p₁ p₂ : String) (s₁ s₂ : Score)
    (n : Nat) (hn : 0 < n)
    (h₁ : zscore st (lb_key t g (shard_index p₁ n)) p₁ = some s₁)
    (h₂ : zscore st (lb_key t g (shard_index p₂ n)) p₂ = some s₂)
    (hs : s₂ < s₁) :
    ∃ r₁ r₂, get_approx_rank st t g p₁ n = some r₁
      ∧ get_approx_rank st t g p₂ n = some r₂ ∧ r₁ < r₂ := by
  refine ⟨_, _, get_approx_rank_some h₁, get_approx_rank_some h₂, ?_⟩
  have hmem : (p₁, s₁) ∈ allEntries st t g n := by
    rw [allEntries]
    exact List.mem_flatMap.mpr
      ⟨shard_index p₁ n, List.mem_range.mpr (Nat.mod_lt _ hn), zscore_mem h₁⟩
  have hlt : (allEntries st t g n).countP (fun e => decide (s₁ < e.2))
      < (allEntries st t g n).countP (fun e => decide (s₂ < e.2)) := by
    refine countP_lt_of_mem hmem ?_ ?_ ?_
    · simp
    · simpa using hs
    · intro y hy
      simp only [decide_eq_true_eq] at hy ⊢
      exact hs.trans hy
  omega

theorem get_approx_rank_monotone_witness :
    (0 < 4
      ∧ zscore twoPlayerState (lb_key "t1" "g1" (shard_index "alice" 4)) "alice" = some 100
      ∧ zscore twoPlayerState (lb_key "t1" "g1" (shard_index "bob" 4)) "bob" = some 50
      ∧ (50 : Score) < 100)
    ∧ ∃ r₁ r₂, get_approx_rank twoPlayerState "t1" "g1" "alice" 4 = some r₁
        ∧ get_approx_rank twoPlayerState "t1" "g1" "bob" 4 = some r₂ ∧ r₁ < r₂ :=
  ⟨⟨by decide, by decide, by decide, by decide⟩,
    get_approx_rank_monotone twoPlayerState "t1" "g1" "alice" "bob" 100 50 4 (by decide)
      (by decide) (by decide) (by decide)⟩

/-! ### The shard-placement invariant -/

/-- Invariant of one leaderboard's keys: every cached entry sits on the key
of the shard its player hashes to, and each shard's member list is
duplicate-free. -/
def lbInv (t g : String) (n : Nat) (st : CacheState) : Prop :=
  ∀ i : Nat, (∀ e ∈ st (lb_key t g i), shard_index e.1 n = i)
    ∧ ((st (lb_key t g i)).map Prod.fst).Nodup

theorem lbInv_empty (t g : String) (n : Nat) : lbInv t g n emptyCache := fun _ =>
  ⟨fun e he => absurd he (List.not_mem_nil e), by simp [emptyCache]⟩

theorem lbInv_update (t g : String) (n : Nat) {st : CacheState} (h : lbInv t g n st)
    (p : String) (s : Score) : lbInv t g n (update_score st t g p s n) := by
  intro i
  by_cases hk : lb_key t g i = lb_key t g (shard_index p n)
  · have hi : i = shard_index p n := lb_key_inj hk
    subst hi
    rw [update_score, zadd_self]
    constructor
    · intro e he
      rcases List.mem_append.mp he with hf | hs
      · exact (h (shard_index p n)).1 e (List.mem_filter.mp hf).1
      · rw [List.mem_singleton.mp hs]
    · rw [List.map_append, List.nodup_append]
      refine ⟨((List.filter_sublist _).map Prod.fst).nodup (h (shard_index p n)).2, by simp, ?_⟩
      intro a ha hb
      rcases List.mem_map.mp ha with ⟨e, he, rfl⟩
      have hne : e.1 ≠ p := by simpa using (List.mem_filter.mp he).2
      simp only [List.map_cons, List.map_nil, List.mem_singleton] at hb
      exact hne hb
  · rw [update_score, zadd_other _ _ _ _ hk]
    exact h i

theorem lbInv_foldl_update (t g : String) (n : Nat) (rows : List (String × Score))
    {st : CacheState} (h : lbInv t g n st) :
    lbInv t g n (rows.foldl (fun s r => update_score s t g r.1 r.2 n) st) := by
  induction rows generalizing st with
  | nil => exact h
  | cons r tl ih => exact ih (lbInv_update t g n h r.1 r.2)

theorem lbInv_runOps (t g : String) (n : Nat) (ops : List LbOp) :
    lbInv t g n (runLbOps t g n ops) := by
  rw [runLbOps]
  have hstep : ∀ st, lbInv t g n st → lbInv t g n (ops.foldl (applyLbOp t g n) st) := by
    induction ops with
    | nil => exact fun _ h => h
    | cons o tl ih =>
      intro st h
      refine ih _ ?_
      cases o with
      | upd p s => exact lbInv_update t g n h p s
      | rebuild rows => exact lbInv_foldl_update t g n rows h
  exact hstep emptyCache (lbInv_empty t g n)

theorem countP_fst_le_one {l : ZSet} (h : (l.map Prod.fst).Nodup) (p : String) :
    l.countP (fun e => decide (e.1 = p)) ≤ 1 := by
  induction l with
  | nil => simp
  | cons a tl ih =>
    rw [List.map_cons, List.nodup_cons] at h
    rw [List.countP_cons]
    by_cases hap : a.1 = p
    · have h0 : tl.countP (fun e => decide (e.1 = p)) = 0 := by
        rw [List.countP_eq_zero]
        intro e he
        simp only [decide_eq_true_eq]
        intro hep
        have hmem : e.1 ∈ tl.map Prod.fst := List.mem_map_of_mem Prod.fst he
        rw [hep, ← hap] at hmem
        exact h.1 hmem
      rw [h0]
      split <;> omega
    · have := ih h.2
      rw [decide_eq_false hap]
      simp only [Bool.false_eq_true, if_false]
      omega

/-- C4: starting from the empty cache, any sequence of `update_score` and
`rebuild_from_db` operations on a leaderboard leaves at most one entry per
player in the union of its shard sorted-sets, and an entry present in shard
`i < shard_count` lies exactly in the shard its player hashes to — never
split or duplicated across shards (shard_count held fixed). -/
theorem leaderboard_shard_invariant (t g : String) (n : Nat) (ops : List LbOp) (_hn : 0 < n) :
    (∀ i < n, ∀ e ∈ runLbOps t g n ops (lb_key t g i), shard_index e.1 n = i)
    ∧ ∀ p : String,
        (allEntries (runLbOps t g n ops) t g n).countP (fun e => decide (e.1 = p)) ≤ 1 := by
  have hinv := lbInv_runOps t g n ops
  constructor
  · exact fun i _ e he => (hinv i).1 e he
  · intro p
    rw [allEntries]
    refine @countP_flatMap_le_one _ (List.range n) _ (shard_index p n)
      (List.nodup_range n) ?_ ?_
    · intro i _ hine
      rw [List.countP_eq_zero]
      intro e he
      simp only [decide_eq_true_eq]
      intro hep
      have h2 : shard_index p n = i := by
        rw [← hep]
        exact (hinv i).1 e he
      exact hine h2.symm
    · exact countP_fst_le_one (hinv (shard_index p n)).2 p

theorem leaderboard_shard_invariant_witness :
    0 < 4
    ∧ ((∀ i < 4, ∀ e ∈ runLbOps "t1" "g1" 4 demoOps (lb_key "t1" "g1" i), shard_index e.1 4 = i)
        ∧ ∀ p : String,
            (allEntries (runLbOps "t1" "g1" 4 demoOps) "t1" "g1" 4).countP
              (fun e => decide (e.1 = p)) ≤ 1) :=
  ⟨by decide, leaderboard_shard_invariant "t1" "g1" 4 demoOps (by decide)⟩

/-! ### Exactness of `get_top_k` -/

theorem length_zrevrange_take (st : CacheState) (key : String) (k : Nat) (hk : 1 ≤ k) :
    (zrevrange_withscores st key 0 ((k : Int) - 1)).length = min k (st key).length := by
  rw [zrevrange_withscores, redisSlice_take _ _ hk, List.length_take, zrevSorted,
    List.length_insertionSort]

theorem min_length_flatMap {α : Type} (k : Nat) (l : List α) (f g : α → ZSet)
    (h : ∀ i ∈ l, (f i).length = min k (g i).length) :
    min k (l.flatMap f).length = min k (l.flatMap g).length := by
  induction l with
  | nil => rfl
  | cons a tl ih =>
    rw [List.flatMap_cons, List.flatMap_cons, List.length_append, List.length_append,
      h a (List.mem_cons_self _ _)]
    have := ih fun i hi => h i (List.mem_cons_of_mem _ hi)
    omega

theorem countP_zrevrange_le (st : CacheState) (key : String) (start stop : Int)
    (p : Entry → Bool) :
    (zrevrange_withscores st key start stop).countP p ≤ (st key).countP p := by
  rw [← (zrevSorted_perm (st key)).countP_eq p]
  exact (zrevrange_sublist_sorted st key start stop).countP_le p

theorem mem_slices_allEntries {st : CacheState} {t g : String} {k n : Nat} {e : Entry}
    (h : e ∈ (List.range n).flatMap fun i =>
      zrevrange_withscores st (lb_key t g i) 0 ((k : Int) - 1)) :
    e ∈ allEntries st t g n := by
  rcases List.mem_flatMap.mp h with ⟨i, hi, he⟩
  exact List.mem_flatMap.mpr ⟨i, hi, mem_zrevrange _ _ _ _ he⟩

theorem countP_slices_le (st : CacheState) (t g : String) (k n : Nat) (p : Entry → Bool) :
    ((List.range n).flatMap fun i =>
      zrevrange_withscores st (lb_key t g i) 0 ((k : Int) - 1)).countP p
      ≤ (allEntries st t g n).countP p := by
  rw [allEntries]
  exact flatMap_countP_mono p fun i _ => countP_zrevrange_le st (lb_key t g i) _ _ p

/-- C1 (amended): `get_top_k` is exact, not an approximation.  It returns
`min k total` entries drawn from the cached union; an omitted entry never
strictly outscores a returned one; and every entry that belongs to each
true global top-k (at most `k` cached entries tie or exceed its score) is
returned.  In particular an entry ranked `k+1`-th within its own shard —
which has `k` shard-mates tying or exceeding it — never belongs to the true
global top k, so the per-shard top-k merge misses nothing it owes. -/
theorem get_top_k_exact (st : CacheState) (t g : String) (k n : Nat) (_hk : k < 2 ^ 63) :
    (get_top_k st t g k n).length = min k (allEntries st t g n).length
    ∧ (∀ e ∈ get_top_k st t g k n, e ∈ allEntries st t g n)
    ∧ (∀ e ∈ allEntries st t g n, e ∉ get_top_k st t g k n →
        ∀ x ∈ get_top_k st t g k n, e.2 ≤ x.2)
    ∧ (∀ e ∈ allEntries st t g n,
        (allEntries st t g n).countP (fun x => decide (e.2 ≤ x.2)) ≤ k →
        e ∈ get_top_k st t g k n) := by
  simp only [get_top_k]
  have hsortC := List.sorted_insertionSort scoreGE
    ((List.range n).flatMap fun i => zrevrange_withscores st (lb_key t g i) 0 ((k : Int) - 1))
  have hpermC := List.perm_insertionSort scoreGE
    ((List.range n).flatMap fun i => zrevrange_withscores st (lb_key t g i) 0 ((k : Int) - 1))
  refine ⟨?_, ?_, ?_, ?_⟩
  · -- length
    rcases Nat.eq_zero_or_pos k with rfl | hk1
    · simp
    · rw [List.length_take, List.length_insertionSort]
      exact min_length_flatMap k (List.range n) _ _
        fun i _ => length_zrevrange_take st (lb_key t g i) k hk1
  · -- soundness
    intro e he
    exact mem_slices_allEntries (hpermC.mem_iff.mp ((List.take_sublist _ _).mem he))
  · -- an omitted entry never strictly beats a returned one
    intro e hme hnot x hx
    by_cases heC : e ∈ (List.range n).flatMap fun i =>
        zrevrange_withscores st (lb_key t g i) 0 ((k : Int) - 1)
    · have heS := hpermC.mem_iff.mpr heC
      rw [← List.take_append_drop k (List.insertionSort scoreGE _)] at heS
      rcases List.mem_append.mp heS with hT | hD
      · exact absurd hT hnot
      · exact pairwise_take_drop hsortC hx hD
    · have hk1 : 1 ≤ k := by
        by_contra hcon
        obtain rfl : k = 0 := by omega
        refine heC ?_
        rcases List.mem_flatMap.mp hme with ⟨i, hi, hei⟩
        refine List.mem_flatMap.mpr ⟨i, hi, ?_⟩
        simp only [zrevrange_withscores]
        rw [show ((0 : Nat) : Int) - 1 = -1 by norm_num, redisSlice_all]
        exact (zrevSorted_perm _).mem_iff.mpr hei
      rcases List.mem_flatMap.mp hme with ⟨i, hi, hei⟩
      have hsortS := zrevSorted_pairwise (st (lb_key t g i))
      have hes : e ∈ zrevSorted (st (lb_key t g i)) :=
        (zrevSorted_perm _).mem_iff.mpr hei
      have hnotT : e ∉ (zrevSorted (st (lb_key t g i))).take k := by
        intro hT
        exact heC (List.mem_flatMap.mpr ⟨i, hi, by
          simp only [zrevrange_withscores]
          rw [redisSlice_take _ _ hk1]
          exact hT⟩)
      have heD : e ∈ (zrevSorted (st (lb_key t g i))).drop k := by
        have h2 := hes
        rw [← List.take_append_drop k (zrevSorted (st (lb_key t g i)))] at h2
        rcases List.mem_append.mp h2 with hT | hD
        · exact absurd hT hnotT
        · exact hD
      have hlenT : ((zrevSorted (st (lb_key t g i))).take k).length = k := by
        have hlt : k < (zrevSorted (st (lb_key t g i))).length := by
          by_contra hcon
          rw [List.drop_eq_nil_of_le (by omega)] at heD
          exact absurd heD (List.not_mem_nil e)
        rw [List.length_take]
        omega
      have hallT : ∀ x' ∈ (zrevSorted (st (lb_key t g i))).take k, e.2 ≤ x'.2 :=
        fun x' hx' => pairwise_take_drop hsortS hx' heD
      have hcT : ((zrevSorted (st (lb_key t g i))).take k).countP
          (fun y => decide (e.2 ≤ y.2)) = k := by
        rw [List.countP_eq_length.mpr fun a ha => decide_eq_true (hallT a ha), hlenT]
      have hcC := component_countP_le (fun y => decide (e.2 ≤ y.2))
        (fun j => zrevrange_withscores st (lb_key t g j) 0 ((k : Int) - 1)) hi
      simp only [zrevrange_withscores] at hcC
      rw [redisSlice_take _ _ hk1, hcT] at hcC
      have hsCk : k ≤ (List.insertionSort scoreGE ((List.range n).flatMap fun j =>
          zrevrange_withscores st (lb_key t g j) 0 ((k : Int) - 1))).countP
          (fun y => decide (e.2 ≤ y.2)) := by
        rw [hpermC.countP_eq]
        exact hcC
      exact take_score_ge hsortC hsCk x hx
  · -- every necessarily-top-k entry is returned
    intro e hme hcnt
    have hk1 : 1 ≤ k := by
      have h1 : 0 < (allEntries st t g n).countP (fun x => decide (e.2 ≤ x.2)) :=
        List.countP_pos_iff.mpr ⟨e, hme, by simp⟩
      omega
    rcases List.mem_flatMap.mp hme with ⟨i, hi, hei⟩
    have hsortS := zrevSorted_pairwise (st (lb_key t g i))
    have hes : e ∈ zrevSorted (st (lb_key t g i)) := (zrevSorted_perm _).mem_iff.mpr hei
    have hcs : (zrevSorted (st (lb_key t g i))).countP (fun x => decide (e.2 ≤ x.2)) ≤ k := by
      rw [(zrevSorted_perm _).countP_eq]
      exact le_trans (component_countP_le _ (fun j => st (lb_key t g j)) hi) hcnt
    have het := mem_take_of_countP_le hsortS hes hcs
    have heC : e ∈ (List.range n).flatMap fun j =>
        zrevrange_withscores st (lb_key t g j) 0 ((k : Int) - 1) :=
      List.mem_flatMap.mpr ⟨i, hi, by
        simp only [zrevrange_withscores]
        rw [redisSlice_take _ _ hk1]
        exact het⟩
    have heSC := hpermC.mem_iff.mpr heC
    have hcSC : (List.insertionSort scoreGE ((List.range n).flatMap fun j =>
        zrevrange_withscores st (lb_key t g j) 0 ((k : Int) - 1))).countP
        (fun x => decide (e.2 ≤ x.2)) ≤ k := by
      rw [hpermC.countP_eq]
      exact le_trans (countP_slices_le st t g k n _) hcnt
    exact mem_take_of_countP_le hsortC heSC hcSC

theorem get_top_k_exact_witness :
    2 < 2 ^ 63
    ∧ ((get_top_k topKDemoState "t1" "g1" 2 2).length
          = min 2 (allEntries topKDemoState "t1" "g1" 2).length
        ∧ (∀ e ∈ get_top_k topKDemoState "t1" "g1" 2 2,
            e ∈ allEntries topKDemoState "t1" "g1" 2)
        ∧ (∀ e ∈ allEntries topKDemoState "t1" "g1" 2,
            e ∉ get_top_k topKDemoState "t1" "g1" 2 2 →
            ∀ x ∈ get_top_k topKDemoState "t1" "g1" 2 2, e.2 ≤ x.2)
        ∧ (∀ e ∈ allEntries topKDemoState "t1" "g1" 2,
            (allEntries topKDemoState "t1" "g1" 2).countP
              (fun x => decide (e.2 ≤ x.2)) ≤ 2 →
            e ∈ get_top_k topKDemoState "t1" "g1" 2 2)) :=
  ⟨by decide, get_top_k_exact topKDemoState "t1" "g1" 2 2 (by decide)⟩

/-- C1 at the spec's own "approximation boundary" scenario: with shard 0
holding the global #1, #2 and #3 and shard 1 a low entry, `get_top_k` with
`k = 2` returns exactly the true global top 2.  The entry ranked 3rd within
its own shard is not missed wrongly: strictly more than 2 cached entries tie
or exceed its score, so it belongs to no true global top 2 — refuting the
claimed gap. -/
theorem get_top_k_misses_nothing_cex :
    get_top_k topKDemoState "t1" "g1" 2 2 = [("alice", 100), ("bob", 90)]
    ∧ ("carol", (80 : Score)) ∈ (zrevSorted (topKDemoState (lb_key "t1" "g1" 0))).drop 2
    ∧ 2 < (allEntries topKDemoState "t1" "g1" 2).countP
        (fun x => decide ((80 : Score) ≤ x.2)) := by
  decide

/-! ### The score submission route -/

/-- C10: a submission with `score < 0` or `score > 999999` is rejected with
`BadRequest` before the database transaction begins: the durable store
(`game_progress`, `players`, `score_history`) and the leaderboard cache are
returned unchanged. -/
theorem submit_score_invalid_rejected (db : Db) (cache : CacheState) (n : Nat)
    (t g p : String) (body : ScoreSubmitRequest) (ach : Except AppError (List String))
    (h : body.score < 0 ∨ 999999 < body.score) :
    submit_score db cache n t g p body ach
      = ⟨db, cache, .error (.BadRequest "Score must be between 0 and 999999")⟩ := by
  rw [submit_score, if_pos h]

theorem submit_score_invalid_rejected_witness :
    ((⟨-5, none, none⟩ : ScoreSubmitRequest).score < 0
        ∨ 999999 < (⟨-5, none, none⟩ : ScoreSubmitRequest).score)
    ∧ submit_score demoDb emptyCache 4 "t1" "g1" "p1" ⟨-5, none, none⟩ (.ok [])
        = ⟨demoDb, emptyCache, .error (.BadRequest "Score must be between 0 and 999999")⟩ :=
  ⟨by decide,
    submit_score_invalid_rejected demoDb emptyCache 4 "t1" "g1" "p1" ⟨-5, none, none⟩
      (.ok []) (by decide)⟩

/-- C7: a valid submission whose score is at most the player's existing
durable high score still succeeds, answers `isNewHighScore = false` with the
old high score, and leaves the durable `high_score` column unchanged, since
the upsert takes `GREATEST(old, submitted)`. -/
theorem submit_score_not_new_high (db : Db) (cache : CacheState) (n : Nat)
    (t g p : String) (body : ScoreSubmitRequest) (achs : List String) (r : ProgressRow)
    (hrow : db.game_progress (p, t, g) = some r)
    (h0 : 0 ≤ body.score) (h1 : body.score ≤ 999999) (hle : body.score ≤ r.high_score) :
    (submit_score db cache n t g p body (.ok achs)).response
      = .ok ⟨true, r.high_score, calculate_stars g r.high_score, false, achs⟩
    ∧ ((submit_score db cache n t g p body (.ok achs)).db.game_progress (p, t, g)).map
        (·.high_score) = some r.high_score := by
  have hvalid : ¬(body.score < 0 ∨ 999999 < body.score) := by omega
  have hmax : max r.high_score body.score = r.high_score := max_eq_left hle
  have hdec : decide (r.high_score < body.score) = false := decide_eq_false (not_lt.mpr hle)
  constructor
  · simp only [submit_score, hrow]
    rw [if_neg hvalid]
    simp [hmax, hdec]
  · simp only [submit_score, hrow]
    rw [if_neg hvalid]
    simp [hmax]

theorem submit_score_not_new_high_witness :
    (demoDb.game_progress ("p1", "t1", "g1") = some demoRow
      ∧ (0 : Int) ≤ (⟨40, none, none⟩ : ScoreSubmitRequest).score
      ∧ (⟨40, none, none⟩ : ScoreSubmitRequest).score ≤ 999999
      ∧ (⟨40, none, none⟩ : ScoreSubmitRequest).score ≤ demoRow.high_score)
    ∧ ((submit_score demoDb emptyCache 4 "t1" "g1" "p1" ⟨40, none, none⟩ (.ok [])).response
        = .ok ⟨true, demoRow.high_score, calculate_stars "g1" demoRow.high_score, false, []⟩
      ∧ ((submit_score demoDb emptyCache 4 "t1" "g1" "p1" ⟨40, none, none⟩
            (.ok [])).db.game_progress ("p1", "t1", "g1")).map (·.high_score)
          = some demoRow.high_score) :=
  ⟨⟨by decide, by decide, by decide, by decide⟩,
    submit_score_not_new_high demoDb emptyCache 4 "t1" "g1" "p1" ⟨40, none, none⟩ [] demoRow
      (by decide) (by decide) (by decide) (by decide)⟩

/-- C8 (amended): after the transaction commits, the fire-and-forget cache
dispatch can never turn the submission into an error — the committed store
and dispatched cache update are identical whatever the achievement outcome,
and when achievement evaluation succeeds the handler returns success — but
the awaited achievement evaluation runs after the commit and its failure
does surface as an error response for the already-committed submission. -/
theorem submit_score_post_commit (db : Db) (cache : CacheState) (n : Nat) (t g p : String)
    (body : ScoreSubmitRequest) (achs : List String)
    (hvalid : ¬(body.score < 0 ∨ 999999 < body.score)) :
    (∃ resp : ScoreSubmitResponse,
        (submit_score db cache n t g p body (.ok achs)).response = .ok resp
        ∧ resp.success = true ∧ resp.newAchievements = achs)
    ∧ (∀ e : AppError, (submit_score db cache n t g p body (.error e)).response = .error e)
    ∧ ∀ o₁ o₂ : Except AppError (List String),
        (submit_score db cache n t g p body o₁).db = (submit_score db cache n t g p body o₂).db
        ∧ (submit_score db cache n t g p body o₁).cache
          = (submit_score db cache n t g p body o₂).cache := by
  refine ⟨?_, ?_, ?_⟩
  · refine ⟨⟨true, max (prev_high db p t g) body.score,
      calculate_stars g (max (prev_high db p t g) body.score),
      decide (prev_high db p t g < body.score), achs⟩, ?_, rfl, rfl⟩
    rw [submit_score, if_neg hvalid]
    rfl
  · intro e
    rw [submit_score, if_neg hvalid]
  · intro o₁ o₂
    simp only [submit_score, if_neg hvalid]
    cases o₁ <;> cases o₂ <;> exact ⟨rfl, rfl⟩

theorem submit_score_post_commit_witness :
    ¬((⟨200, none, none⟩ : ScoreSubmitRequest).score < 0
        ∨ 999999 < (⟨200, none, none⟩ : ScoreSubmitRequest).score)
    ∧ ((∃ resp : ScoreSubmitResponse,
          (submit_score demoDb emptyCache 4 "t1" "g1" "p1" ⟨200, none, none⟩
            (.ok ["first-win"])).response = .ok resp
          ∧ resp.success = true ∧ resp.newAchievements = ["first-win"])
        ∧ (∀ e : AppError,
            (submit_score demoDb emptyCache 4 "t1" "g1" "p1" ⟨200, none, none⟩
              (.error e)).response = .error e)
        ∧ ∀ o₁ o₂ : Except AppError (List String),
            (submit_score demoDb emptyCache 4 "t1" "g1" "p1" ⟨200, none, none⟩ o₁).db
              = (submit_score demoDb emptyCache 4 "t1" "g1" "p1" ⟨200, none, none⟩ o₂).db
            ∧ (submit_score demoDb emptyCache 4 "t1" "g1" "p1" ⟨200, none, none⟩ o₁).cache
              = (submit_score demoDb emptyCache 4 "t1" "g1" "p1" ⟨200, none, none⟩ o₂).cache) :=
  ⟨by decide,
    submit_score_post_commit demoDb emptyCache 4 "t1" "g1" "p1" ⟨200, none, none⟩
      ["first-win"] (by decide)⟩

/-- C8 refutation at a concrete input: a valid submission whose awaited
achievement evaluation fails after `tx.commit()`.  The durable store shows
the committed write — a history row appended and the high score raised from
100 to 200 — yet the handler answers with the evaluation's error, so a step
executed after the commit did turn the committed submission into an error
response. -/
theorem submit_score_error_after_commit_cex :
    demoFailedAchOutcome.response = .error (.Database "connection reset")
    ∧ demoFailedAchOutcome.db.score_history.length = demoDb.score_history.length + 1
    ∧ (demoFailedAchOutcome.db.game_progress ("p1", "t1", "g1")).map (·.high_score)
        = some 200
    ∧ (demoDb.game_progress ("p1", "t1", "g1")).map (·.high_score) = some 100 := by
  refine ⟨rfl, rfl, rfl, rfl⟩

end Minigames
